import Mathlib

/-!
# Verification of the tetengo trie / lattice libraries

Shallow embedding of the Rust sources under `src/tetengo_trie` and
`src/tetengo_lattice`, together with theorems settling the specification
claims about them.

Conventions:
* Machine integers are modelled as `Nat` / `Int` with explicit `% 2^w`
  arithmetic where wrap-around matters (`u32` cells, `i32` bases).
* Fallible operations return `Option`.
* Interior mutability through `RefCell` (the base-check array auto-extension)
  is modelled by explicit state passing: a read returns the value together
  with the possibly extended storage.
-/

set_option maxRecDepth 4096

namespace Tetengo

/-! ## Memory storage (`src/tetengo_trie/src/memory_storage.rs`)

`MemoryStorage<T>` holds the base-check array (a vector of `u32` cells,
modelled as `List Nat` whose entries are `< 2^32`) and the value table
(`Vec<Option<T>>`, modelled as `List (Option T)`). -/

structure MemoryStorage (T : Type) where
  baseCheckArray : List Nat
  valueArray : List (Option T)
deriving DecidableEq

/-- `MemoryStorage::new`: one cell `0xFF` (base 0, vacant check `0xFF`),
empty value array. -/
def MemoryStorage.new (T : Type) : MemoryStorage T :=
  ⟨[0xFF], []⟩

/-- `MemoryStorage::ensure_base_check_size`: `resize(size, 0xFF)` when
`size` exceeds the current length (new cells filled with the vacant cell). -/
def MemoryStorage.ensure_base_check_size {T : Type} (s : MemoryStorage T) (size : Nat) :
    MemoryStorage T :=
  if s.baseCheckArray.length < size then
    { s with baseCheckArray :=
        s.baseCheckArray ++ List.replicate (size - s.baseCheckArray.length) 0xFF }
  else s

/-- `Storage::base_check_size` for the memory storage. -/
def MemoryStorage.base_check_size {T : Type} (s : MemoryStorage T) : Nat :=
  s.baseCheckArray.length

/-- `Storage::base_at` for the memory storage:
`(self.base_check_array.borrow()[i] >> 8u32) as i32`.
The shift on `u32` is a logical shift, so the result is the upper 24 bits of
the cell read as a non-negative number (`cell / 256 < 2^24`); the cast to
`i32` therefore never produces a negative value.  The `RefCell` growth done
by `ensure_base_check_size` is returned as the second component. -/
def MemoryStorage.base_at {T : Type} (s : MemoryStorage T) (i : Nat) :
    Int × MemoryStorage T :=
  let s' := s.ensure_base_check_size (i + 1)
  (((s'.baseCheckArray.getD i 0) / 256 : Nat), s')

/-- `Storage::set_base_at` for the memory storage:
`cell &= 0x000000FF; cell |= (base as u32) << 8`.
`(base as u32) << 8` equals `(base * 256) mod 2^32` (two's complement cast
then logical shift dropping the top bits); its low byte is zero, so the
bitwise or is ordinary addition with `cell % 256`. -/
def MemoryStorage.set_base_at {T : Type} (s : MemoryStorage T) (i : Nat) (base : Int) :
    MemoryStorage T :=
  let s' := s.ensure_base_check_size (i + 1)
  let cell := s'.baseCheckArray.getD i 0
  let newCell := cell % 256 + ((base * 256).emod 4294967296).toNat
  { s' with baseCheckArray := s'.baseCheckArray.set i newCell }

/-- `Storage::check_at` for the memory storage:
`(cell & 0xFF) as u8`, with the same auto-extension as `base_at`. -/
def MemoryStorage.check_at {T : Type} (s : MemoryStorage T) (i : Nat) :
    Nat × MemoryStorage T :=
  let s' := s.ensure_base_check_size (i + 1)
  ((s'.baseCheckArray.getD i 0) % 256, s')

/-- `Storage::set_check_at` for the memory storage:
`cell &= 0xFFFFFF00; cell |= check as u32`.  `cell - cell % 256` clears the
low byte; adding the `u8` value `check` is the bitwise or. -/
def MemoryStorage.set_check_at {T : Type} (s : MemoryStorage T) (i : Nat) (check : Nat) :
    MemoryStorage T :=
  let s' := s.ensure_base_check_size (i + 1)
  let cell := s'.baseCheckArray.getD i 0
  let newCell := cell - cell % 256 + check
  { s' with baseCheckArray := s'.baseCheckArray.set i newCell }

/-- `Storage::value_count` for the memory storage. -/
def MemoryStorage.value_count {T : Type} (s : MemoryStorage T) : Nat :=
  s.valueArray.length

/-- `Storage::value_at` for the memory storage (out of range or empty slot
gives `none`). -/
def MemoryStorage.value_at {T : Type} (s : MemoryStorage T) (i : Nat) : Option T :=
  s.valueArray.getD i none

/-- `Storage::add_value_at` for the memory storage:
`resize_with(i + 1, || None)` when needed, then store `Some value`. -/
def MemoryStorage.add_value_at {T : Type} (s : MemoryStorage T) (i : Nat) (v : T) :
    MemoryStorage T :=
  let arr :=
    if s.valueArray.length ≤ i then
      s.valueArray ++ List.replicate (i + 1 - s.valueArray.length) none
    else s.valueArray
  { s with valueArray := arr.set i (some v) }

/-! ### Helper lemmas about the storage operations -/

theorem ensure_length {T : Type} (s : MemoryStorage T) (n : Nat) :
    (s.ensure_base_check_size n).baseCheckArray.length =
      max s.baseCheckArray.length n := by
  unfold MemoryStorage.ensure_base_check_size
  by_cases h : s.baseCheckArray.length < n
  · simp [h]
    omega
  · simp [h]
    omega

theorem ensure_getD_lt {T : Type} (s : MemoryStorage T) (n i : Nat)
    (h : i < s.baseCheckArray.length) :
    (s.ensure_base_check_size n).baseCheckArray.getD i 0 =
      s.baseCheckArray.getD i 0 := by
  unfold MemoryStorage.ensure_base_check_size
  by_cases hlt : s.baseCheckArray.length < n
  · simp only [hlt, if_pos]
    rw [List.getD_eq_getElem?_getD, List.getD_eq_getElem?_getD,
      List.getElem?_append_left h]
  · simp [hlt]

theorem ensure_getD_ge {T : Type} (s : MemoryStorage T) (n i : Nat)
    (h1 : s.baseCheckArray.length ≤ i) (h2 : i < n) :
    (s.ensure_base_check_size n).baseCheckArray.getD i 0 = 0xFF := by
  unfold MemoryStorage.ensure_base_check_size
  have hlt : s.baseCheckArray.length < n := lt_of_le_of_lt h1 h2
  simp only [hlt, if_pos]
  rw [List.getD_eq_getElem?_getD, List.getElem?_append_right h1]
  rw [List.getElem?_replicate]
  have : i - s.baseCheckArray.length < n - s.baseCheckArray.length := by omega
  simp [this]

/-! ### Claim C2: `set_base_at` / `base_at` round trip

The code stores the low 24 bits of the base in the upper 24 bits of the
cell, but reads them back with a logical shift (`u32 >> 8`) followed by a
cast, without sign extension.  A negative base therefore does not round
trip: it is read back as `base mod 2^24`, a non-negative number. -/

theorem set_base_at_cell {T : Type} (s : MemoryStorage T) (i : Nat) (b : Int) :
    ((s.set_base_at i b).baseCheckArray.getD i 0) =
      ((s.ensure_base_check_size (i + 1)).baseCheckArray.getD i 0) % 256 +
        ((b * 256) % 4294967296).toNat := by
  unfold MemoryStorage.set_base_at
  have hlen : i < (s.ensure_base_check_size (i + 1)).baseCheckArray.length := by
    rw [ensure_length]; omega
  simp only
  rw [List.getD_eq_getElem?_getD, List.getElem?_set_self (by omega)]
  simp only [Option.getD_some]
  rfl

theorem base_at_set_base_at {T : Type} (s : MemoryStorage T) (i : Nat) (b : Int) :
    (((s.set_base_at i b).base_at i).1) = ((b % 16777216 : Int)) := by
  unfold MemoryStorage.base_at
  have hlen : i < ((s.set_base_at i b)).baseCheckArray.length := by
    unfold MemoryStorage.set_base_at
    simp only [List.length_set]
    rw [ensure_length]; omega
  simp only
  rw [ensure_getD_lt _ _ _ hlen, set_base_at_cell]
  omega

/-- C2, counterexample: on a fresh memory storage, `set_base_at(0, -1)`
followed by `base_at(0)` returns `16777215 = 2^24 - 1`, not `-1`: the upper
24 bits are not sign-extended on read. -/
theorem c2_counterexample :
    (((MemoryStorage.new Unit).set_base_at 0 (-1)).base_at 0).1 = 16777215 ∧
      ((16777215 : Int) ≠ -1) := by
  constructor
  · decide
  · decide

/-- C2 (amended): after `set_base_at(i, b)` with `-2^23 ≤ b < 2^23`,
`base_at(i)` returns `b mod 2^24` — equal to `b` exactly when `b` is
non-negative; a negative `b` is read back as `b + 2^24` because the upper
24 bits are read as an unsigned quantity without sign extension. -/
theorem set_base_at_round_trip (T : Type) (s : MemoryStorage T) (i : Nat) (b : Int)
    (h1 : -(2 ^ 23) ≤ b) (h2 : b < 2 ^ 23) :
    (((s.set_base_at i b).base_at i).1 = b % 16777216) ∧
      (0 ≤ b → ((s.set_base_at i b).base_at i).1 = b) ∧
      (b < 0 → ((s.set_base_at i b).base_at i).1 = b + 16777216) := by
  refine ⟨base_at_set_base_at s i b, ?_, ?_⟩
  · intro hb
    rw [base_at_set_base_at s i b]
    norm_num at h2
    omega
  · intro hb
    rw [base_at_set_base_at s i b]
    norm_num at h1
    omega

/-- Witness for C2 (amended) at `s = new`, `i = 0`, `b = -1`. -/
theorem set_base_at_round_trip_witness :
    (((MemoryStorage.new Unit).set_base_at 0 (-1)).base_at 0).1 = -1 + 16777216 := by
  have h := set_base_at_round_trip Unit (MemoryStorage.new Unit) 0 (-1)
    (by norm_num) (by norm_num)
  exact h.2.2 (by norm_num)

/-! ### Claim C7: read operations auto-extend the base-check array -/

/-- C7: for `i ≥ base_check_size`, `base_at(i)` returns 0 and grows the
array to exactly `i + 1` cells; newly created cells are the vacant cell
`0xFF` (base 0, check `0xFF`), previously existing cells are unchanged, and
`check_at(i)` grows the array the same way and returns `0xFF`. -/
theorem base_at_auto_extends (T : Type) (s : MemoryStorage T) (i : Nat)
    (h : s.baseCheckArray.length ≤ i) :
    ((s.base_at i).1 = 0) ∧
      ((s.base_at i).2.baseCheckArray.length = i + 1) ∧
      (∀ j, j < s.baseCheckArray.length →
        (s.base_at i).2.baseCheckArray.getD j 0 = s.baseCheckArray.getD j 0) ∧
      (∀ j, s.baseCheckArray.length ≤ j → j ≤ i →
        (s.base_at i).2.baseCheckArray.getD j 0 = 0xFF) ∧
      ((s.check_at i).1 = 0xFF) ∧
      ((s.check_at i).2 = (s.base_at i).2) := by
  have hcell : (s.ensure_base_check_size (i + 1)).baseCheckArray.getD i 0 = 0xFF :=
    ensure_getD_ge s (i + 1) i h (by omega)
  refine ⟨?_, ?_, ?_, ?_, ?_, ?_⟩
  · unfold MemoryStorage.base_at
    simp only
    rw [hcell]
    decide
  · unfold MemoryStorage.base_at
    simp only
    rw [ensure_length]
    omega
  · intro j hj
    unfold MemoryStorage.base_at
    simp only
    exact ensure_getD_lt s (i + 1) j hj
  · intro j hj1 hj2
    unfold MemoryStorage.base_at
    simp only
    exact ensure_getD_ge s (i + 1) j hj1 (by omega)
  · unfold MemoryStorage.check_at
    simp only
    rw [hcell]
  · unfold MemoryStorage.check_at MemoryStorage.base_at
    rfl

/-- Witness for C7 at `s = new`, `i = 3`. -/
theorem base_at_auto_extends_witness :
    ((MemoryStorage.new Unit).base_at 3).1 = 0 ∧
      ((MemoryStorage.new Unit).base_at 3).2.baseCheckArray.length = 4 ∧
      ((MemoryStorage.new Unit).check_at 3).1 = 0xFF := by
  have h := base_at_auto_extends Unit (MemoryStorage.new Unit) 3 (by decide)
  exact ⟨h.1, h.2.1, h.2.2.2.2.1⟩

/-! ## Lattice entries and nodes (`src/tetengo_lattice/src/node.rs`)

The key and value of a node are borrowed trait objects (`&dyn Input`,
`&dyn AnyValue`); they are modelled by type parameters `K` and `V`.
`usize::MAX` is `2^64 - 1`. -/

def usizeMax : Nat := 18446744073709551615

/-- Modelled from the spec: `EntryView` (`entry.rs` is not in `src/`).
An entry view is either the `BosEos` sentinel (key `None`, value `None`,
cost 0) or a concrete `(key, value, cost)` over borrowed data. -/
inductive EntryView (K V : Type) where
  | BosEos : EntryView K V
  | Concrete (key : K) (value : V) (cost : Int) : EntryView K V
deriving DecidableEq

/-- Modelled from the spec: `EntryView::key` (`BosEos` has no key). -/
def EntryView.key {K V : Type} : EntryView K V → Option K
  | .BosEos => none
  | .Concrete k _ _ => some k

/-- Modelled from the spec: `EntryView::value` (`BosEos` has no value). -/
def EntryView.value {K V : Type} : EntryView K V → Option V
  | .BosEos => none
  | .Concrete _ v _ => some v

/-- Modelled from the spec: `EntryView::cost` (`BosEos` has cost 0). -/
def EntryView.cost {K V : Type} : EntryView K V → Int
  | .BosEos => 0
  | .Concrete _ _ c => c

/-- The `NodeError` enum of `node.rs`. -/
inductive NodeError where
  | BosOrEosEntryNotAllowed : NodeError
deriving DecidableEq

/-- The `Node` enum of `node.rs`: `Bos`, `Eos` and `Middle` variants with
the fields of the corresponding Rust structs. -/
inductive Node (K V : Type) where
  | Bos (preceding_edge_costs : List Int) : Node K V
  | Eos (preceding_step : Nat) (preceding_edge_costs : List Int)
      (best_preceding_node : Nat) (path_cost : Int) : Node K V
  | Middle (key : K) (value : V) (index_in_step : Nat) (preceding_step : Nat)
      (preceding_edge_costs : List Int) (best_preceding_node : Nat)
      (node_cost : Int) (path_cost : Int) : Node K V
deriving DecidableEq

/-- `Node::from` (named `from_entry` here because `from` is reserved in
Lean): fails with `BosOrEosEntryNotAllowed` when the entry has no key or no
value; otherwise builds a `Middle` node taking `node_cost` from the
entry. -/
def Node.from_entry {K V : Type} (entry : EntryView K V) (index_in_step : Nat)
    (preceding_step : Nat) (preceding_edge_costs : List Int)
    (best_preceding_node : Nat) (path_cost : Int) :
    Except NodeError (Node K V) :=
  match entry.key with
  | none => .error NodeError.BosOrEosEntryNotAllowed
  | some key =>
    match entry.value with
    | none => .error NodeError.BosOrEosEntryNotAllowed
    | some value =>
      .ok (Node.Middle key value index_in_step preceding_step
        preceding_edge_costs best_preceding_node entry.cost path_cost)

/-- `Node::key`. -/
def Node.key {K V : Type} : Node K V → Option K
  | .Bos _ => EntryView.key (K := K) (V := V) EntryView.BosEos
  | .Eos _ _ _ _ => EntryView.key (K := K) (V := V) EntryView.BosEos
  | .Middle k _ _ _ _ _ _ _ => some k

/-- `Node::value`. -/
def Node.value {K V : Type} : Node K V → Option V
  | .Bos _ => EntryView.value (K := K) (V := V) EntryView.BosEos
  | .Eos _ _ _ _ => EntryView.value (K := K) (V := V) EntryView.BosEos
  | .Middle _ v _ _ _ _ _ _ => some v

/-- `Node::index_in_step`. -/
def Node.index_in_step {K V : Type} : Node K V → Nat
  | .Bos _ => 0
  | .Eos _ _ _ _ => 0
  | .Middle _ _ i _ _ _ _ _ => i

/-- `Node::preceding_step` (`usize::MAX` for BOS). -/
def Node.preceding_step {K V : Type} : Node K V → Nat
  | .Bos _ => usizeMax
  | .Eos p _ _ _ => p
  | .Middle _ _ _ p _ _ _ _ => p

/-- `Node::preceding_edge_costs`. -/
def Node.preceding_edge_costs {K V : Type} : Node K V → List Int
  | .Bos pec => pec
  | .Eos _ pec _ _ => pec
  | .Middle _ _ _ _ pec _ _ _ => pec

/-- `Node::best_preceding_node` (`usize::MAX` for BOS). -/
def Node.best_preceding_node {K V : Type} : Node K V → Nat
  | .Bos _ => usizeMax
  | .Eos _ _ b _ => b
  | .Middle _ _ _ _ _ b _ _ => b

/-- `Node::node_cost` (the `BosEos` entry cost, 0, for BOS and EOS). -/
def Node.node_cost {K V : Type} : Node K V → Int
  | .Bos _ => EntryView.cost (K := K) (V := V) EntryView.BosEos
  | .Eos _ _ _ _ => EntryView.cost (K := K) (V := V) EntryView.BosEos
  | .Middle _ _ _ _ _ _ c _ => c

/-- `Node::path_cost` (0 for BOS). -/
def Node.path_cost {K V : Type} : Node K V → Int
  | .Bos _ => 0
  | .Eos _ _ _ c => c
  | .Middle _ _ _ _ _ _ _ c => c

/-! ### Claim C9: `Node::from` rejects exactly the BOS/EOS entry -/

/-- C9: `Node::from` returns `BosOrEosEntryNotAllowed` if and only if the
entry view is the `BosEos` sentinel (the only entry whose key or value is
absent); on every concrete entry it succeeds and returns a `Middle` node
whose key, value and node cost are the entry's and whose remaining fields
are the given arguments. -/
theorem node_from_entry_spec (K V : Type) (entry : EntryView K V)
    (index_in_step preceding_step : Nat) (preceding_edge_costs : List Int)
    (best_preceding_node : Nat) (path_cost : Int) :
    (Node.from_entry entry index_in_step preceding_step preceding_edge_costs
        best_preceding_node path_cost =
        Except.error NodeError.BosOrEosEntryNotAllowed ↔ entry = EntryView.BosEos) ∧
      (∀ k v c, entry = EntryView.Concrete k v c →
        Node.from_entry entry index_in_step preceding_step preceding_edge_costs
            best_preceding_node path_cost =
          Except.ok (Node.Middle k v index_in_step preceding_step
            preceding_edge_costs best_preceding_node c path_cost)) := by
  constructor
  · cases entry with
    | BosEos => simp [Node.from_entry, EntryView.key]
    | Concrete k v c =>
      simp [Node.from_entry, EntryView.key, EntryView.value]
  · intro k v c h
    subst h
    simp [Node.from_entry, EntryView.key, EntryView.value, EntryView.cost]

/-! ### Claim C10: BOS node accessors -/

/-- C10: on a BOS node, `preceding_step` and `best_preceding_node` return
the sentinel `usize::MAX = 2^64 - 1`, `index_in_step` returns 0, `key` and
`value` are absent, `node_cost` is 0 and `path_cost` is 0. -/
theorem bos_node_accessors (K V : Type) (preceding_edge_costs : List Int) :
    (Node.preceding_step (K := K) (V := V) (Node.Bos preceding_edge_costs) =
        usizeMax) ∧
      (Node.best_preceding_node (K := K) (V := V) (Node.Bos preceding_edge_costs) =
        usizeMax) ∧
      (usizeMax = 2 ^ 64 - 1) ∧
      (Node.index_in_step (K := K) (V := V) (Node.Bos preceding_edge_costs) = 0) ∧
      (Node.key (K := K) (V := V) (Node.Bos preceding_edge_costs) = none) ∧
      (Node.value (K := K) (V := V) (Node.Bos preceding_edge_costs) = none) ∧
      (Node.node_cost (K := K) (V := V) (Node.Bos preceding_edge_costs) = 0) ∧
      (Node.path_cost (K := K) (V := V) (Node.Bos preceding_edge_costs) = 0) := by
  refine ⟨rfl, rfl, by norm_num [usizeMax], rfl, rfl, rfl, rfl, rfl⟩

/-! ## The N-best iterator (`src/tetengo_lattice/src/n_best_iterator.rs`)

The `NBestIterator` in the source is an unimplemented counter: it holds
`current` and `max` (`i32`), takes no lattice, and `next()` yields the
integers `1, 2, ..., max`.  The `_Cap` frontier type exists but is dead
code.  Since `current < max ≤ i32::MAX`, `current + 1` never overflows, so
plain `Int` arithmetic is faithful. -/

structure NBestIterator where
  current : Int
  max : Int
deriving DecidableEq

/-- `NBestIterator::new`. -/
def NBestIterator.new (max : Int) : NBestIterator :=
  ⟨0, max⟩

/-- `NBestIterator::next` (an `Iterator` on item type `i32`). -/
def NBestIterator.next (it : NBestIterator) : Option Int × NBestIterator :=
  if it.current < it.max then (some (it.current + 1), ⟨it.current + 1, it.max⟩)
  else (none, it)

/-- Collect at most `fuel` items from the iterator. -/
def NBestIterator.collect (fuel : Nat) (it : NBestIterator) : List Int :=
  match fuel with
  | 0 => []
  | fuel + 1 =>
    match it.next with
    | (some v, it') => v :: NBestIterator.collect fuel it'
    | (none, _) => []

/-- `_Cap::cmp` (`Ord` of the dead-code `_Cap` struct): caps compare by
`whole_path_cost` alone; there is no insertion-order tie breaker. -/
def capCmp (whole_path_cost other_whole_path_cost : Int) : Ordering :=
  compare whole_path_cost other_whole_path_cost

/-! ### Claim C1: what the N-best iterator actually emits

The claim describes path enumeration over a completed lattice, but the
source's `NBestIterator` takes no lattice at all and yields the integer
counter values `1, 2, ..., max`.  The theorem evaluates the iterator code
at `max = 3`: it emits the integers `[1, 2, 3]`, not paths, and a fourth
call returns an absent item. -/

theorem nbest_iterator_stub_emits_counter :
    NBestIterator.collect 10 (NBestIterator.new 3) = [1, 2, 3] ∧
      ((NBestIterator.collect 10 (NBestIterator.new 3)).length = 3 ∧
        (NBestIterator.next ⟨3, 3⟩).1 = none) := by
  refine ⟨by decide, by decide, by decide⟩

/-! ## Storage serialization (`src/tetengo_trie/src/memory_storage.rs`)

Byte streams are `List Nat` with entries `< 256`.  The `assert!` macros of
the source abort on over-long arrays; serialization is therefore modelled
as `Option`-valued, `none` standing for an assertion failure.  Read
failures (`TruncatedInput`, a failing value deserializer) are `none` on the
reading side. -/

/-- Rust `ValueSerializer<T>`: a caller-supplied serialize function and a
fixed value size (0 means variable size).  `value_serializer.rs` is not in
`src/`; the pair is modelled from the spec (section 4.A, value codec). -/
structure ValueSerializer (T : Type) where
  serialize : T → List Nat
  fixed_value_size : Nat

/-- Rust `ValueDeserializer<T>`: a caller-supplied deserialize function
(failure modelled as `none`).  Modelled from the spec (section 4.A), as
`value_serializer.rs` is not in `src/`. -/
structure ValueDeserializer (T : Type) where
  deserialize : List Nat → Option T

/-- Source `MemoryStorage::write_u32`, which uses
`IntegerSerializer::<u32>::new(false)`.  Modelled from the spec
(section 4.A): big-endian, 4 bytes, no `0xFE` escaping
(`integer_serializer.rs` is not in `src/`). -/
def write_u32 (v : Nat) : List Nat :=
  [v / 16777216 % 256, v / 65536 % 256, v / 256 % 256, v % 256]

/-- Source `MemoryStorage::serialize_base_check_array`: asserts
`len < u32::MAX`, writes the length then every cell, each as a big-endian
`u32`. -/
def serialize_base_check_array (arr : List Nat) : Option (List Nat) :=
  if arr.length < 4294967295 then
    some (write_u32 arr.length ++ arr.foldr (fun c acc => write_u32 c ++ acc) [])
  else none

/-- One slot of `MemoryStorage::serialize_value_array`: with variable size,
a present value is written as a `u32` length prefix (asserted
`< u32::MAX`) followed by its serialized bytes and an absent slot as
length 0; with fixed size, a present value must serialize to exactly
`fixed_value_size` bytes (`assert!`) and an absent slot is that many
`0xFF` bytes. -/
def serialize_one_value {T : Type} (vs : ValueSerializer T) (slot : Option T) :
    Option (List Nat) :=
  if vs.fixed_value_size = 0 then
    match slot with
    | some v =>
      let serialized := vs.serialize v
      if serialized.length < 4294967295 then
        some (write_u32 serialized.length ++ serialized)
      else none
    | none => some (write_u32 0)
  else
    match slot with
    | some v =>
      let serialized := vs.serialize v
      if serialized.length = vs.fixed_value_size then some serialized else none
    | none => some (List.replicate vs.fixed_value_size 0xFF)

/-- The slot loop of `serialize_value_array`: serialize every slot in
order, failing if any single slot fails its `assert!`. -/
def serialize_slots {T : Type} (vs : ValueSerializer T) :
    List (Option T) → Option (List (List Nat))
  | [] => some []
  | slot :: rest => do
    let p ← serialize_one_value vs slot
    let ps ← serialize_slots vs rest
    pure (p :: ps)

/-- Source `MemoryStorage::serialize_value_array`: asserts the lengths,
writes the value count, the fixed value size, then every slot. -/
def serialize_value_array {T : Type} (vs : ValueSerializer T)
    (arr : List (Option T)) : Option (List Nat) :=
  if arr.length < 4294967295 ∧ vs.fixed_value_size < 4294967295 then
    (serialize_slots vs arr).map fun parts =>
      write_u32 arr.length ++ write_u32 vs.fixed_value_size ++
        parts.foldr (fun p acc => p ++ acc) []
  else none

/-- Source `MemoryStorage::serialize` (named `serialize_bytes` to avoid
clashing with the `ValueSerializer` field): base-check array first, then
the value array. -/
def MemoryStorage.serialize_bytes {T : Type} (s : MemoryStorage T)
    (vs : ValueSerializer T) : Option (List Nat) := do
  let a ← serialize_base_check_array s.baseCheckArray
  let b ← serialize_value_array vs s.valueArray
  pure (a ++ b)

/-- Source `MemoryStorage::read_u32`: `read_exact` 4 bytes, then
`IntegerDeserializer::<u32>::new(false)` (big-endian, modelled from the
spec, `integer_serializer.rs` not in `src/`); fewer than 4 bytes is a
`TruncatedInput` failure. -/
def read_u32 : List Nat → Option (Nat × List Nat)
  | b0 :: b1 :: b2 :: b3 :: rest =>
    some (b0 * 16777216 + b1 * 65536 + b2 * 256 + b3, rest)
  | _ => none

/-- The cell-reading loop of `deserialize_base_check_array`. -/
def read_cells : Nat → List Nat → Option (List Nat × List Nat)
  | 0, bytes => some ([], bytes)
  | n + 1, bytes => do
    let (c, rest) ← read_u32 bytes
    let (cs, rest') ← read_cells n rest
    pure (c :: cs, rest')

/-- Source `MemoryStorage::deserialize_base_check_array`: read the size,
then that many cells. -/
def deserialize_base_check_array (bytes : List Nat) :
    Option (List Nat × List Nat) := do
  let (size, rest) ← read_u32 bytes
  read_cells size rest

/-- `Read::read_exact` on a byte list. -/
def read_exact (n : Nat) (bytes : List Nat) : Option (List Nat × List Nat) :=
  if n ≤ bytes.length then some (bytes.take n, bytes.drop n) else none

/-- The slot-reading loop of `deserialize_value_array`: with variable size
(`fixed = 0`), a length prefix of 0 is an absent slot, otherwise that many
bytes are read and deserialized; with fixed size, `fixed` bytes are read
and an all-`0xFF` chunk is an absent slot. -/
def read_values {T : Type} (vd : ValueDeserializer T) (fixed : Nat) :
    Nat → List Nat → Option (List (Option T) × List Nat)
  | 0, bytes => some ([], bytes)
  | n + 1, bytes =>
    if fixed = 0 then do
      let (esize, rest) ← read_u32 bytes
      if esize > 0 then do
        let (chunk, rest') ← read_exact esize rest
        let v ← vd.deserialize chunk
        let (vs, rest'') ← read_values vd fixed n rest'
        pure (some v :: vs, rest'')
      else do
        let (vs, rest') ← read_values vd fixed n rest
        pure (none :: vs, rest')
    else do
      let (chunk, rest') ← read_exact fixed bytes
      if chunk.all (fun b => b = 0xFF) then do
        let (vs, rest'') ← read_values vd fixed n rest'
        pure (none :: vs, rest'')
      else do
        let v ← vd.deserialize chunk
        let (vs, rest'') ← read_values vd fixed n rest'
        pure (some v :: vs, rest'')

/-- Source `MemoryStorage::deserialize_value_array`: read the value count
and the fixed value size, then the slots. -/
def deserialize_value_array {T : Type} (vd : ValueDeserializer T)
    (bytes : List Nat) : Option (List (Option T) × List Nat) := do
  let (size, r1) ← read_u32 bytes
  let (fixed, r2) ← read_u32 r1
  read_values vd fixed size r2

/-- Source `MemoryStorage::from_reader` / `MemoryStorage::deserialize`:
base-check array then value array; leftover bytes are not consumed. -/
def MemoryStorage.from_reader {T : Type} (bytes : List Nat)
    (vd : ValueDeserializer T) : Option (MemoryStorage T) := do
  let (cells, r1) ← deserialize_base_check_array bytes
  let (values, _) ← deserialize_value_array vd r1
  pure ⟨cells, values⟩

/-! ### Claim C6: the concrete 52-byte serialization

The storage of spec scenario S4 (and of the source's own `serialize` unit
test): cells `[0x00002AFF, 0x0000FE18]`, values `piyo` at 1, `fuga` at 2,
`hoge` at 4.  The variable-length string value serializer writes the raw
UTF-8 bytes of the string (the length prefix is added per slot by
`serialize_value_array`), as the source's test vector shows; strings are
modelled as their byte lists, so its serialize function is the identity. -/

/-- C6: serializing that storage produces exactly the 52 bytes prescribed
by the binary format: cell count 2, the two cells, value count 5, fixed
size 0, then length-prefixed slots with length 0 for the two absent
slots. -/
theorem serialize_concrete_storage_bytes :
    MemoryStorage.serialize_bytes
        (⟨[0x00002AFF, 0x0000FE18],
          [none, some [0x70, 0x69, 0x79, 0x6F], some [0x66, 0x75, 0x67, 0x61],
            none, some [0x68, 0x6F, 0x67, 0x65]]⟩ : MemoryStorage (List Nat))
        ⟨fun v => v, 0⟩ =
      some ([0x00, 0x00, 0x00, 0x02,
             0x00, 0x00, 0x2A, 0xFF,
             0x00, 0x00, 0xFE, 0x18,
             0x00, 0x00, 0x00, 0x05,
             0x00, 0x00, 0x00, 0x00,
             0x00, 0x00, 0x00, 0x00,
             0x00, 0x00, 0x00, 0x04,
             0x70, 0x69, 0x79, 0x6F,
             0x00, 0x00, 0x00, 0x04,
             0x66, 0x75, 0x67, 0x61,
             0x00, 0x00, 0x00, 0x00,
             0x00, 0x00, 0x00, 0x04,
             0x68, 0x6F, 0x67, 0x65]) := by
  decide

/-! ### Claim C5: serialize / from_reader round trip

The round trip fails in general: with the variable-size string serializer a
present value whose serialization is empty is written as length 0, which
`deserialize_value_array` reads back as an absent slot.  With that proviso
(and the symmetric fixed-size proviso) the round trip holds. -/

/-- C5, counterexample: the storage holding the empty string at slot 0,
serialized with the (identity, variable-size) string value serializer and
reloaded with the matching deserializer, comes back with slot 0 absent. -/
theorem c5_counterexample :
    ((MemoryStorage.serialize_bytes
          (⟨[0xFF], [some ([] : List Nat)]⟩ : MemoryStorage (List Nat))
          ⟨fun v => v, 0⟩).bind
        fun bytes => MemoryStorage.from_reader bytes ⟨fun b => some b⟩) =
      some ⟨[0xFF], [none]⟩ ∧
      (⟨[0xFF], [none]⟩ : MemoryStorage (List Nat)) ≠ ⟨[0xFF], [some []]⟩ := by
  constructor
  · decide
  · decide

theorem read_write_u32 (n : Nat) (rest : List Nat) (h : n < 4294967296) :
    read_u32 (write_u32 n ++ rest) = some (n, rest) := by
  simp only [write_u32, List.cons_append, List.nil_append, read_u32]
  congr 2
  omega

theorem foldr_append_tail (f : Nat → List Nat) (cs : List Nat) (t : List Nat) :
    (cs.foldr (fun c acc => f c ++ acc) []) ++ t =
      cs.foldr (fun c acc => f c ++ acc) t := by
  induction cs with
  | nil => simp
  | cons c cs ih => simp [List.foldr_cons, List.append_assoc, ih]

theorem foldr_parts_append_tail (ps : List (List Nat)) (t : List Nat) :
    (ps.foldr (fun p acc => p ++ acc) []) ++ t =
      ps.foldr (fun p acc => p ++ acc) t := by
  induction ps with
  | nil => simp
  | cons p ps ih => simp [List.foldr_cons, List.append_assoc, ih]

theorem read_cells_roundtrip (cs : List Nat) (rest : List Nat)
    (h : ∀ c ∈ cs, c < 4294967296) :
    read_cells cs.length (cs.foldr (fun c acc => write_u32 c ++ acc) rest) =
      some (cs, rest) := by
  induction cs with
  | nil => simp [read_cells]
  | cons c cs ih =>
    have hc : c < 4294967296 := h c (List.mem_cons_self c cs)
    have hcs : ∀ x ∈ cs, x < 4294967296 := fun x hx => h x (List.mem_cons_of_mem c hx)
    simp only [List.length_cons, List.foldr_cons, read_cells]
    rw [read_write_u32 c _ hc]
    simp only [Option.bind_eq_bind, Option.some_bind]
    rw [ih hcs]
    rfl

theorem read_values_roundtrip {T : Type} (vs : ValueSerializer T)
    (vd : ValueDeserializer T)
    (hinv : ∀ v, vd.deserialize (vs.serialize v) = some v)
    (arr : List (Option T))
    (hvar : vs.fixed_value_size = 0 → ∀ v, some v ∈ arr →
      0 < (vs.serialize v).length ∧ (vs.serialize v).length < 4294967295)
    (hfixed : vs.fixed_value_size ≠ 0 → ∀ v, some v ∈ arr →
      (vs.serialize v).length = vs.fixed_value_size ∧
        (vs.serialize v).all (fun b => b = 0xFF) = false) :
    ∃ parts, serialize_slots vs arr = some parts ∧
      ∀ rest, read_values vd vs.fixed_value_size arr.length
          (parts.foldr (fun p acc => p ++ acc) rest) = some (arr, rest) := by
  induction arr with
  | nil =>
    refine ⟨[], rfl, fun rest => by simp [read_values]⟩
  | cons slot arr ih =>
    have hvar' : vs.fixed_value_size = 0 → ∀ v, some v ∈ arr →
        0 < (vs.serialize v).length ∧ (vs.serialize v).length < 4294967295 :=
      fun h0 v hv => hvar h0 v (List.mem_cons_of_mem slot hv)
    have hfixed' : vs.fixed_value_size ≠ 0 → ∀ v, some v ∈ arr →
        (vs.serialize v).length = vs.fixed_value_size ∧
          (vs.serialize v).all (fun b => b = 0xFF) = false :=
      fun h0 v hv => hfixed h0 v (List.mem_cons_of_mem slot hv)
    obtain ⟨parts, hparts, hread⟩ := ih hvar' hfixed'
    by_cases hfz : vs.fixed_value_size = 0
    · rw [hfz] at hread
      cases slot with
      | none =>
        refine ⟨write_u32 0 :: parts, ?_, ?_⟩
        · simp [serialize_slots, serialize_one_value, hfz, hparts]
        · intro rest
          rw [hfz]
          simp only [List.length_cons, List.foldr_cons, read_values, if_pos]
          rw [read_write_u32 0 _ (by norm_num)]
          simp only [Option.bind_eq_bind, Option.some_bind, gt_iff_lt,
            lt_self_iff_false, if_false]
          rw [hread rest]
          rfl
      | some v =>
        have hv := hvar hfz v (List.mem_cons_self _ _)
        refine ⟨(write_u32 (vs.serialize v).length ++ vs.serialize v) :: parts,
          ?_, ?_⟩
        · simp [serialize_slots, serialize_one_value, hfz, hv.2, hparts]
        · intro rest
          rw [hfz]
          simp only [List.length_cons, List.foldr_cons, read_values, if_pos,
            List.append_assoc]
          rw [read_write_u32 _ _ (by omega)]
          simp only [Option.bind_eq_bind, Option.some_bind, gt_iff_lt]
          rw [if_pos hv.1]
          simp only [read_exact]
          rw [if_pos (by simp)]
          rw [List.take_left, List.drop_left]
          simp only [Option.some_bind]
          rw [hinv v]
          simp only [Option.some_bind]
          rw [hread rest]
          rfl
    · cases slot with
      | none =>
        refine ⟨List.replicate vs.fixed_value_size 0xFF :: parts, ?_, ?_⟩
        · simp [serialize_slots, serialize_one_value, hfz, hparts]
        · intro rest
          simp only [List.length_cons, List.foldr_cons, read_values]
          rw [if_neg hfz]
          simp only [read_exact]
          rw [if_pos (by simp)]
          have hlen : (List.replicate vs.fixed_value_size (0xFF : Nat)).length =
              vs.fixed_value_size := List.length_replicate _ _
          rw [List.take_left' hlen, List.drop_left' hlen]
          simp only [Option.bind_eq_bind, Option.some_bind]
          rw [if_pos (by simp)]
          rw [hread rest]
          rfl
      | some v =>
        have hv := hfixed hfz v (List.mem_cons_self _ _)
        refine ⟨vs.serialize v :: parts, ?_, ?_⟩
        · simp [serialize_slots, serialize_one_value, hfz, hv.1, hparts]
        · intro rest
          simp only [List.length_cons, List.foldr_cons, read_values]
          rw [if_neg hfz]
          simp only [read_exact]
          rw [if_pos (by simp [hv.1])]
          rw [List.take_left' hv.1, List.drop_left' hv.1]
          simp only [Option.bind_eq_bind, Option.some_bind]
          rw [if_neg (by simp [hv.2])]
          rw [hinv v]
          simp only [Option.some_bind]
          rw [hread rest]
          rfl

/-- C5 (amended): serializing a memory storage and reloading the bytes with
the matching value deserializer restores the base-check array cell for cell
and the value array slot for slot, provided the arrays are shorter than
`u32::MAX` (the source's `assert!`s), the cells are `u32` values, the
deserializer inverts the serializer, and every present value serializes to
a form the format can represent: non-empty and shorter than `u32::MAX` in
variable-size mode, exactly `fixed_value_size` bytes and not all `0xFF` in
fixed-size mode. -/
theorem serialize_from_reader_round_trip (T : Type) (s : MemoryStorage T)
    (vs : ValueSerializer T) (vd : ValueDeserializer T)
    (hcells : ∀ c ∈ s.baseCheckArray, c < 4294967296)
    (hclen : s.baseCheckArray.length < 4294967295)
    (hvlen : s.valueArray.length < 4294967295)
    (hfix : vs.fixed_value_size < 4294967295)
    (hinv : ∀ v, vd.deserialize (vs.serialize v) = some v)
    (hvar : vs.fixed_value_size = 0 → ∀ v, some v ∈ s.valueArray →
      0 < (vs.serialize v).length ∧ (vs.serialize v).length < 4294967295)
    (hfixed : vs.fixed_value_size ≠ 0 → ∀ v, some v ∈ s.valueArray →
      (vs.serialize v).length = vs.fixed_value_size ∧
        (vs.serialize v).all (fun b => b = 0xFF) = false) :
    ∃ bytes, s.serialize_bytes vs = some bytes ∧
      MemoryStorage.from_reader bytes vd = some s := by
  obtain ⟨parts, hparts, hread⟩ := read_values_roundtrip vs vd hinv s.valueArray hvar hfixed
  have hbc : serialize_base_check_array s.baseCheckArray =
      some (write_u32 s.baseCheckArray.length ++
        s.baseCheckArray.foldr (fun c acc => write_u32 c ++ acc) []) := by
    simp [serialize_base_check_array, hclen]
  have hva : serialize_value_array vs s.valueArray =
      some (write_u32 s.valueArray.length ++ write_u32 vs.fixed_value_size ++
        parts.foldr (fun p acc => p ++ acc) []) := by
    simp [serialize_value_array, hvlen, hfix, hparts]
  refine ⟨(write_u32 s.baseCheckArray.length ++
      s.baseCheckArray.foldr (fun c acc => write_u32 c ++ acc) []) ++
      (write_u32 s.valueArray.length ++ write_u32 vs.fixed_value_size ++
        parts.foldr (fun p acc => p ++ acc) []), ?_, ?_⟩
  · unfold MemoryStorage.serialize_bytes
    rw [hbc, hva]
    rfl
  · unfold MemoryStorage.from_reader
    have hdbc : deserialize_base_check_array
        ((write_u32 s.baseCheckArray.length ++
          s.baseCheckArray.foldr (fun c acc => write_u32 c ++ acc) []) ++
          (write_u32 s.valueArray.length ++ write_u32 vs.fixed_value_size ++
            parts.foldr (fun p acc => p ++ acc) [])) =
        some (s.baseCheckArray,
          write_u32 s.valueArray.length ++ write_u32 vs.fixed_value_size ++
            parts.foldr (fun p acc => p ++ acc) []) := by
      unfold deserialize_base_check_array
      rw [List.append_assoc, read_write_u32 _ _ (by omega)]
      simp only [Option.bind_eq_bind, Option.some_bind]
      rw [foldr_append_tail, read_cells_roundtrip _ _ hcells]
    rw [hdbc]
    simp only [Option.bind_eq_bind, Option.some_bind]
    have hdva : deserialize_value_array vd
        (write_u32 s.valueArray.length ++ write_u32 vs.fixed_value_size ++
          parts.foldr (fun p acc => p ++ acc) []) =
        some (s.valueArray, []) := by
      unfold deserialize_value_array
      rw [List.append_assoc, read_write_u32 _ _ (by omega)]
      simp only [Option.bind_eq_bind, Option.some_bind]
      rw [read_write_u32 _ _ (by omega)]
      simp only [Option.some_bind]
      exact hread []
    rw [hdva]
    rfl

/-- Witness for C5 (amended) at the concrete storage of scenario S4 with
the identity (string) value serializer. -/
theorem serialize_from_reader_round_trip_witness :
    ∃ bytes,
      MemoryStorage.serialize_bytes
          (⟨[0x00002AFF, 0x0000FE18],
            [none, some [0x70, 0x69, 0x79, 0x6F], some [0x66, 0x75, 0x67, 0x61],
              none, some [0x68, 0x6F, 0x67, 0x65]]⟩ : MemoryStorage (List Nat))
          ⟨fun v => v, 0⟩ = some bytes ∧
        MemoryStorage.from_reader bytes ⟨fun b => some b⟩ =
          some ⟨[0x00002AFF, 0x0000FE18],
            [none, some [0x70, 0x69, 0x79, 0x6F], some [0x66, 0x75, 0x67, 0x61],
              none, some [0x68, 0x6F, 0x67, 0x65]]⟩ := by
  refine serialize_from_reader_round_trip (List Nat) _ ⟨fun v => v, 0⟩ ⟨fun b => some b⟩
    (by decide) (by decide) (by decide) (by decide) (fun v => rfl) ?_ ?_
  · intro _ v hv
    simp only [List.mem_cons, List.not_mem_nil, or_false] at hv
    rcases hv with h | h | h | h | h <;> first
      | exact Option.noConfusion h
      | (injection h with h; subst h; decide)
  · intro h
    exact absurd rfl h

/-! ## Double array iterator (`src/tetengo_trie/src/double_array_iterator.rs`)

The iterator is generic over `&dyn Storage<T>`; the storage is modelled by
its base-check cell list with the memory-storage read semantics: reading
index `i` gives cell `cells[i]`, or the vacant cell `0xFF` beyond the end
(the auto-extension of `ensure_base_check_size` fills exactly that value,
so it never changes the value any later read returns).  Since `base_at` is
`(cell >> 8) as i32`, a base is always a non-negative number below `2^24`;
the iterator's `next_index < 0` guard never fires and index arithmetic
stays in `Nat`. -/

/-- Modelled from the spec: `double_array::KEY_TERMINATOR` is `0xFE` (its
definition is commented out in `double_array.rs`). -/
def KEY_TERMINATOR : Nat := 0xFE

/-- Pure denotation of `check_at` on a base-check cell list. -/
def check_of (cells : List Nat) (i : Nat) : Nat :=
  (cells.getD i 0xFF) % 256

/-- Pure denotation of `base_at` on a base-check cell list. -/
def base_of (cells : List Nat) (i : Nat) : Nat :=
  (cells.getD i 0xFF) / 256

/-- The push loop of `DoubleArrayIterator::next`: `char_code` runs over
`(0..=0xFE).rev()` and each matching child is pushed, so after the loop the
matching children sit on the stack in ascending `char_code` order, smallest
on top.  This list is that stack top-down: ascending codes
(`List.range 255 = [0, ..., 0xFE]`).  A `0xFE` child keeps the parent key;
any other child byte is appended to it. -/
def child_stack (cells : List Nat) (b : Nat) (key : List Nat) :
    List (Nat × List Nat) :=
  (List.range 255).filterMap fun c =>
    if check_of cells (b + c) = c then
      some (b + c, if c = KEY_TERMINATOR then key else key ++ [c])
    else none

/-- `DoubleArrayIterator::next`, fuelled (one unit per popped cell; the
source recurses unboundedly, which claim C8 shows cannot happen under the
trie invariants).  `none` is fuel exhaustion; `some none` is the iterator's
end (empty stack); `some (some (v, st))` yields item `v` leaving stack
`st`. -/
def da_next (cells : List Nat) :
    Nat → List (Nat × List Nat) → Option (Option (Int × List (Nat × List Nat)))
  | 0, _ => none
  | _ + 1, [] => some none
  | fuel + 1, (i, key) :: rest =>
    if check_of cells i = KEY_TERMINATOR then
      some (some ((base_of cells i : Int), rest))
    else
      da_next cells fuel (child_stack cells (base_of cells i) key ++ rest)

/-- Full iteration: repeatedly run `next`, collecting the yielded items,
with one fuel unit per popped cell; returns the items together with the
stack left when the fuel runs out (`[]` once iteration has finished). -/
def da_run (cells : List Nat) :
    Nat → List (Nat × List Nat) → List Int × List (Nat × List Nat)
  | 0, stack => ([], stack)
  | _ + 1, [] => ([], [])
  | fuel + 1, (i, key) :: rest =>
    if check_of cells i = KEY_TERMINATOR then
      let r := da_run cells fuel rest
      ((base_of cells i : Int) :: r.1, r.2)
    else
      da_run cells fuel (child_stack cells (base_of cells i) key ++ rest)

/-- The exact-prefix walk of the double array (spec side): follow one byte
per step, requiring `check(base(cur) + byte) = byte`. -/
def walk_from (cells : List Nat) (i : Nat) : List Nat → Option Nat
  | [] => some i
  | b :: bs =>
    if check_of cells (base_of cells i + b) = b then
      walk_from cells (base_of cells i + b) bs
    else none

/-- A stored byte key below cell `i` (spec side): a walkable path whose
last byte is the `0xFE` terminator and whose other bytes are real key
bytes (`< 0xFE`). -/
def IsStoredKeyFrom (cells : List Nat) (i : Nat) (p : List Nat) : Prop :=
  (∃ q, p = q ++ [KEY_TERMINATOR] ∧ ∀ b ∈ q, b < KEY_TERMINATOR) ∧
    (walk_from cells i p).isSome

/-- The item stored at the end of path `p` from cell `i`: the `base` of the
terminator cell the walk reaches. -/
def value_of (cells : List Nat) (i : Nat) (p : List Nat) : Int :=
  match walk_from cells i p with
  | some t => (base_of cells t : Int)
  | none => 0

/-- Strict lexicographic order on byte lists. -/
def lex_lt : List Nat → List Nat → Bool
  | _, [] => false
  | [], _ :: _ => true
  | a :: as, b :: bs => if a < b then true else if a = b then lex_lt as bs else false

/-- The trie invariants needed by the iterator claims, in finitely
checkable form: `dom` lists the cells reachable from the root, the root is
in `dom` and is not a terminator cell, and every child edge
(`check(base(i) + c) = c` for a byte `c ≤ 0xFE`) stays in `dom` and
strictly decreases `rank` — the unique-parent / finite-acyclic-tree
invariant of the double array. -/
def TrieInv (cells : List Nat) (dom : List Nat) (rank : Nat → Nat) : Prop :=
  0 ∈ dom ∧ check_of cells 0 ≠ KEY_TERMINATOR ∧
    ∀ i ∈ dom, ∀ c < 255, check_of cells (base_of cells i + c) = c →
      (base_of cells i + c) ∈ dom ∧ rank (base_of cells i + c) < rank i

/-- `Processes cells st out used`: running the iterator over the stack
segment `st` consumes exactly `used` pops, emits `out`, and then continues
with whatever lies below `st`. -/
def Processes (cells : List Nat) (st : List (Nat × List Nat)) (out : List Int)
    (used : Nat) : Prop :=
  ∀ rest fuel, da_run cells (used + fuel) (st ++ rest) =
    ((out ++ (da_run cells fuel rest).1, (da_run cells fuel rest).2))

/-! ### Claim C4: the item yielded at a terminator cell

The source returns `Some(base)` at a cell whose check is `0xFE`; the item
is the base itself, not `-base - 1`. -/

/-- C4, counterexample: a storage whose cell 0 is `0x000005FE` (base 5,
check `0xFE`).  Popping it yields `5`, and `5 ≠ -5 - 1`: the yielded item
is not `-base - 1`. -/
theorem c4_counterexample :
    da_next [0x000005FE] 1 [(0, [])] = some (some (5, [])) ∧
      ((5 : Int) ≠ -5 - 1) := by
  constructor
  · decide
  · decide

/-- C4 (amended): when the iterator pops a cell whose check byte is the key
terminator `0xFE`, the item it yields (an `i32`) is the `base` of that cell
itself — the value stored at the leaf — and the rest of the stack is left
untouched. -/
theorem da_next_terminator (cells : List Nat) (i : Nat) (key : List Nat)
    (rest : List (Nat × List Nat)) (fuel : Nat)
    (h : check_of cells i = KEY_TERMINATOR) :
    da_next cells (fuel + 1) ((i, key) :: rest) =
      some (some ((base_of cells i : Int), rest)) := by
  simp [da_next, h]

/-- Witness for C4 (amended) at the counterexample storage. -/
theorem da_next_terminator_witness :
    da_next [0x000005FE] 1 [(0, [])] = some (some ((base_of [0x000005FE] 0 : Int), [])) :=
  da_next_terminator [0x000005FE] 0 [] [] 0 (by decide)

/-! ### The DFS correctness development (claims C3 and C8)

`part_stack` generalizes `child_stack` to an arbitrary ascending list of
candidate codes, `KeyVia` characterizes the stored keys passing through
one child edge, and `Processes` (above) captures "this stack segment is
fully consumed, emitting these items". -/

/-- The sub-stack built from the candidate byte codes `cs` (in ascending
order, as they end up on the stack): `child_stack cells b key =
part_stack cells b key (List.range 255)`. -/
def part_stack (cells : List Nat) (b : Nat) (key : List Nat) (cs : List Nat) :
    List (Nat × List Nat) :=
  cs.filterMap fun c =>
    if check_of cells (b + c) = c then
      some (b + c, if c = KEY_TERMINATOR then key else key ++ [c])
    else none

/-- A stored key (relative to a parent cell of base `b`) entering through
the child edge labelled `c`: the edge must exist, and the key is `[0xFE]`
itself for the terminator edge, or `c` followed by a stored key of the
child for a real byte. -/
def KeyVia (cells : List Nat) (b : Nat) (c : Nat) (p : List Nat) : Prop :=
  check_of cells (b + c) = c ∧
    (if c = KEY_TERMINATOR then p = [KEY_TERMINATOR]
     else ∃ p', p = c :: p' ∧ IsStoredKeyFrom cells (b + c) p')

theorem child_stack_eq_part (cells : List Nat) (b : Nat) (key : List Nat) :
    child_stack cells b key = part_stack cells b key (List.range 255) := rfl

theorem da_run_nil (cells : List Nat) (fuel : Nat) :
    da_run cells fuel [] = ([], []) := by
  cases fuel <;> rfl

theorem da_run_succ_cons (cells : List Nat) (fuel : Nat) (i : Nat)
    (key : List Nat) (rest : List (Nat × List Nat)) :
    da_run cells (fuel + 1) ((i, key) :: rest) =
      if check_of cells i = KEY_TERMINATOR then
        ((base_of cells i : Int) :: (da_run cells fuel rest).1,
          (da_run cells fuel rest).2)
      else da_run cells fuel (child_stack cells (base_of cells i) key ++ rest) := by
  rfl

theorem processes_nil (cells : List Nat) : Processes cells [] [] 0 := by
  intro rest fuel
  simp [Processes]

theorem processes_terminator (cells : List Nat) (i : Nat) (key : List Nat)
    (h : check_of cells i = KEY_TERMINATOR) :
    Processes cells [(i, key)] [(base_of cells i : Int)] 1 := by
  intro rest fuel
  rw [show 1 + fuel = fuel + 1 by omega]
  simp only [List.cons_append, List.nil_append, da_run_succ_cons, h, if_pos]

theorem processes_descend (cells : List Nat) (i : Nat) (key : List Nat)
    (out : List Int) (used : Nat)
    (h : check_of cells i ≠ KEY_TERMINATOR)
    (hch : Processes cells (child_stack cells (base_of cells i) key) out used) :
    Processes cells [(i, key)] out (used + 1) := by
  intro rest fuel
  rw [show used + 1 + fuel = (used + fuel) + 1 by omega]
  simp only [List.cons_append, List.nil_append, da_run_succ_cons, h, if_neg,
    if_false]
  exact hch rest fuel

theorem processes_append (cells : List Nat) (st1 st2 : List (Nat × List Nat))
    (o1 o2 : List Int) (u1 u2 : Nat)
    (h1 : Processes cells st1 o1 u1) (h2 : Processes cells st2 o2 u2) :
    Processes cells (st1 ++ st2) (o1 ++ o2) (u1 + u2) := by
  intro rest fuel
  rw [List.append_assoc, show u1 + u2 + fuel = u1 + (u2 + fuel) by omega]
  rw [h1 (st2 ++ rest) (u2 + fuel), h2 rest fuel]
  simp [List.append_assoc]

theorem lex_lt_cons_same (a : Nat) (p q : List Nat) :
    lex_lt (a :: p) (a :: q) = lex_lt p q := by
  simp [lex_lt]

theorem lex_lt_cons_lt {a b : Nat} (h : a < b) (p q : List Nat) :
    lex_lt (a :: p) (b :: q) = true := by
  simp [lex_lt, h]

theorem value_of_cons (cells : List Nat) (i c : Nat) (p' : List Nat)
    (h : check_of cells (base_of cells i + c) = c) :
    value_of cells i (c :: p') = value_of cells (base_of cells i + c) p' := by
  simp [value_of, walk_from, h]

theorem value_of_terminator (cells : List Nat) (i : Nat)
    (h : check_of cells (base_of cells i + KEY_TERMINATOR) = KEY_TERMINATOR) :
    value_of cells i [KEY_TERMINATOR] =
      (base_of cells (base_of cells i + KEY_TERMINATOR) : Int) := by
  simp [value_of, walk_from, h]

theorem keyVia_head (cells : List Nat) (b c : Nat) (p : List Nat)
    (h : KeyVia cells b c p) : ∃ t, p = c :: t := by
  obtain ⟨_, hp⟩ := h
  by_cases hc : c = KEY_TERMINATOR
  · rw [if_pos hc] at hp
    exact ⟨[], by rw [hp, hc]⟩
  · rw [if_neg hc] at hp
    obtain ⟨p', hp', _⟩ := hp
    exact ⟨p', hp'⟩

theorem isStoredKeyFrom_iff (cells : List Nat) (i : Nat) (p : List Nat) :
    IsStoredKeyFrom cells i p ↔
      ∃ c, c < 255 ∧ KeyVia cells (base_of cells i) c p := by
  constructor
  · rintro ⟨⟨q, hp, hq⟩, hwalk⟩
    cases q with
    | nil =>
      simp only [List.nil_append] at hp
      subst hp
      have hchk : check_of cells (base_of cells i + KEY_TERMINATOR) =
          KEY_TERMINATOR := by
        by_contra hne
        simp [walk_from, hne] at hwalk
      exact ⟨KEY_TERMINATOR, by norm_num [KEY_TERMINATOR],
        hchk, by rw [if_pos rfl]⟩
    | cons b0 q' =>
      simp only [List.cons_append] at hp
      subst hp
      have hb0 : b0 < KEY_TERMINATOR := hq b0 (List.mem_cons_self _ _)
      have hchk : check_of cells (base_of cells i + b0) = b0 := by
        by_contra hne
        simp [walk_from, hne] at hwalk
      have hw' : (walk_from cells (base_of cells i + b0) (q' ++ [KEY_TERMINATOR])).isSome := by
        simpa [walk_from, hchk] using hwalk
      refine ⟨b0, by norm_num [KEY_TERMINATOR] at hb0 ⊢; omega, hchk, ?_⟩
      rw [if_neg (by omega)]
      exact ⟨q' ++ [KEY_TERMINATOR], rfl,
        ⟨⟨q', rfl, fun b hb => hq b (List.mem_cons_of_mem _ hb)⟩, hw'⟩⟩
  · rintro ⟨c, hc255, hchk, hrest⟩
    by_cases hc : c = KEY_TERMINATOR
    · subst hc
      rw [if_pos rfl] at hrest
      subst hrest
      refine ⟨⟨[], rfl, by simp⟩, ?_⟩
      simp [walk_from, hchk]
    · rw [if_neg hc] at hrest
      obtain ⟨p', hp', ⟨⟨q', hq', hbytes⟩, hw⟩⟩ := hrest
      subst hp'
      subst hq'
      refine ⟨⟨c :: q', rfl, ?_⟩, ?_⟩
      · intro b hb
        rcases List.mem_cons.mp hb with h | h
        · subst h
          norm_num [KEY_TERMINATOR] at hc255 hc ⊢
          omega
        · exact hbytes b h
      · simpa [walk_from, hchk] using hw

/-- Inner induction for the DFS correctness: processing the children of a
cell `i` whose candidate codes are the ascending list `cs` yields the keys
entering through those edges, in ascending lexicographic order. -/
theorem part_processes (cells : List Nat) (dom : List Nat) (rank : Nat → Nat)
    (d : Nat)
    (ihd : ∀ j ∈ dom, rank j < d → check_of cells j ≠ KEY_TERMINATOR →
      ∃ kl used, List.Pairwise (fun p q => lex_lt p q = true) kl ∧
        (∀ p, p ∈ kl ↔ IsStoredKeyFrom cells j p) ∧
        ∀ key, Processes cells [(j, key)] (kl.map (value_of cells j)) used)
    (i : Nat) (hranki : rank i < d + 1)
    (hedge : ∀ c, c < 255 → check_of cells (base_of cells i + c) = c →
      (base_of cells i + c) ∈ dom ∧ rank (base_of cells i + c) < rank i) :
    ∀ cs : List Nat, (∀ c ∈ cs, c < 255) →
      List.Pairwise (fun a b => a < b) cs →
    ∃ kl used, List.Pairwise (fun p q => lex_lt p q = true) kl ∧
      (∀ p, p ∈ kl ↔ ∃ c ∈ cs, KeyVia cells (base_of cells i) c p) ∧
      ∀ key, Processes cells (part_stack cells (base_of cells i) key cs)
        (kl.map (value_of cells i)) used := by
  intro cs
  induction cs with
  | nil =>
    intro _ _
    refine ⟨[], 0, List.Pairwise.nil, by simp, fun key => ?_⟩
    simpa [part_stack] using processes_nil cells
  | cons c cs' ih =>
    intro h255 hsort
    have hc255 : c < 255 := h255 c (List.mem_cons_self _ _)
    have hcs'255 : ∀ x ∈ cs', x < 255 :=
      fun x hx => h255 x (List.mem_cons_of_mem _ hx)
    have hlt : ∀ x ∈ cs', c < x :=
      fun x hx => (List.pairwise_cons.mp hsort).1 x hx
    have hsort' := (List.pairwise_cons.mp hsort).2
    obtain ⟨kl', used', hpair', hiff', hproc'⟩ := ih hcs'255 hsort'
    by_cases hchk : check_of cells (base_of cells i + c) = c
    · by_cases hterm : c = KEY_TERMINATOR
      · subst hterm
        have hcs' : cs' = [] := by
          cases cs' with
          | nil => rfl
          | cons x xs =>
            have h1 : x < 255 := hcs'255 x (List.mem_cons_self _ _)
            have h2 : KEY_TERMINATOR < x := hlt x (List.mem_cons_self _ _)
            norm_num [KEY_TERMINATOR] at h2
            omega
        subst hcs'
        refine ⟨[[KEY_TERMINATOR]], 1, List.pairwise_singleton _ _, ?_, fun key => ?_⟩
        · intro p
          constructor
          · intro hp
            rw [List.mem_singleton] at hp
            subst hp
            exact ⟨KEY_TERMINATOR, List.mem_singleton_self _, hchk,
              by rw [if_pos rfl]⟩
          · rintro ⟨c₀, hc₀, hKV⟩
            rw [List.mem_singleton] at hc₀
            subst hc₀
            have hval := hKV.2
            rw [if_pos rfl] at hval
            rw [List.mem_singleton]
            exact hval
        · have hps : part_stack cells (base_of cells i) key [KEY_TERMINATOR] =
              [(base_of cells i + KEY_TERMINATOR, key)] := by
            simp [part_stack, List.filterMap_cons, hchk]
          rw [hps]
          have hout : ([[KEY_TERMINATOR]].map (value_of cells i)) =
              [(base_of cells (base_of cells i + KEY_TERMINATOR) : Int)] := by
            simp [value_of_terminator cells i hchk]
          rw [hout]
          exact processes_terminator cells _ key hchk
      · obtain ⟨hjdom, hjrank⟩ := hedge c hc255 hchk
        have hjterm : check_of cells (base_of cells i + c) ≠ KEY_TERMINATOR := by
          rw [hchk]; exact hterm
        obtain ⟨kl_c, used_c, hpc, hic, hpcproc⟩ :=
          ihd (base_of cells i + c) hjdom (by omega) hjterm
        refine ⟨kl_c.map (fun p => c :: p) ++ kl', used_c + used', ?_, ?_, ?_⟩
        · rw [List.pairwise_append]
          refine ⟨?_, hpair', ?_⟩
          · rw [List.pairwise_map]
            exact hpc.imp fun h => by rw [lex_lt_cons_same]; exact h
          · intro p₀ hp₀ q₀ hq₀
            obtain ⟨p₁, hp₁mem, hp₁⟩ := List.mem_map.mp hp₀
            obtain ⟨c', hc'mem, hKV⟩ := (hiff' q₀).mp hq₀
            obtain ⟨t, ht⟩ := keyVia_head cells _ c' q₀ hKV
            rw [← hp₁, ht]
            exact lex_lt_cons_lt (hlt c' hc'mem) _ _
        · intro p
          simp only [List.mem_append, List.mem_map]
          rw [hiff' p]
          constructor
          · rintro (⟨p₁, hp₁mem, rfl⟩ | ⟨c', hc'mem, hKV⟩)
            · refine ⟨c, List.mem_cons_self _ _, hchk, ?_⟩
              rw [if_neg hterm]
              exact ⟨p₁, rfl, (hic p₁).mp hp₁mem⟩
            · exact ⟨c', List.mem_cons_of_mem _ hc'mem, hKV⟩
          · rintro ⟨c₀, hc₀mem, hKV⟩
            rcases List.mem_cons.mp hc₀mem with rfl | hmem
            · left
              obtain ⟨hchk₀, hr⟩ := hKV
              rw [if_neg hterm] at hr
              obtain ⟨p', rfl, hsk⟩ := hr
              exact ⟨p', (hic p').mpr hsk, rfl⟩
            · right
              exact ⟨c₀, hmem, hKV⟩
        · intro key
          have hps : part_stack cells (base_of cells i) key (c :: cs') =
              (base_of cells i + c, key ++ [c]) ::
                part_stack cells (base_of cells i) key cs' := by
            simp [part_stack, List.filterMap_cons, hchk, hterm]
          rw [hps]
          have hcomp := processes_append cells
            [(base_of cells i + c, key ++ [c])]
            (part_stack cells (base_of cells i) key cs') _ _ used_c used'
            (hpcproc (key ++ [c])) (hproc' key)
          rw [List.map_append, List.map_map]
          have hval : kl_c.map ((value_of cells i) ∘ (fun p => c :: p)) =
              kl_c.map (value_of cells (base_of cells i + c)) :=
            List.map_congr_left fun p _ => value_of_cons cells i c p hchk
          rw [hval]
          simpa using hcomp
    · refine ⟨kl', used', hpair', ?_, ?_⟩
      · intro p
        rw [hiff' p]
        constructor
        · rintro ⟨c', hc', hKV⟩
          exact ⟨c', List.mem_cons_of_mem _ hc', hKV⟩
        · rintro ⟨c₀, hc₀, hKV⟩
          rcases List.mem_cons.mp hc₀ with rfl | hmem
          · exact absurd hKV.1 hchk
          · exact ⟨c₀, hmem, hKV⟩
      · intro key
        have hps : part_stack cells (base_of cells i) key (c :: cs') =
            part_stack cells (base_of cells i) key cs' := by
          simp [part_stack, List.filterMap_cons, hchk]
        rw [hps]
        exact hproc' key

/-- Master lemma: under the trie invariants, the DFS starting at any
reachable non-terminator cell `i` consumes its subtree in finitely many
pops and emits exactly the values of the keys stored below `i`, in strictly
ascending lexicographic order of those keys. -/
theorem subtree_run (cells : List Nat) (dom : List Nat) (rank : Nat → Nat)
    (hinv : TrieInv cells dom rank) :
    ∀ d, ∀ i ∈ dom, rank i < d → check_of cells i ≠ KEY_TERMINATOR →
    ∃ kl used, List.Pairwise (fun p q => lex_lt p q = true) kl ∧
      (∀ p, p ∈ kl ↔ IsStoredKeyFrom cells i p) ∧
      ∀ key, Processes cells [(i, key)] (kl.map (value_of cells i)) used := by
  intro d
  induction d with
  | zero =>
    intro i _ h _
    omega
  | succ d ihd =>
    intro i hi hrank hterm
    have hedge : ∀ c, c < 255 → check_of cells (base_of cells i + c) = c →
        (base_of cells i + c) ∈ dom ∧ rank (base_of cells i + c) < rank i :=
      fun c hc hchk => hinv.2.2 i hi c hc hchk
    obtain ⟨kl, used, hpair, hiff, hproc⟩ :=
      part_processes cells dom rank d ihd i hrank hedge (List.range 255)
        (fun c hc => List.mem_range.mp hc) (List.pairwise_lt_range 255)
    refine ⟨kl, used + 1, hpair, ?_, ?_⟩
    · intro p
      rw [hiff p, isStoredKeyFrom_iff]
      constructor
      · rintro ⟨c, hc, hKV⟩
        exact ⟨c, List.mem_range.mp hc, hKV⟩
      · rintro ⟨c, hc, hKV⟩
        exact ⟨c, List.mem_range.mpr hc, hKV⟩
    · intro key
      refine processes_descend cells i key _ used hterm ?_
      rw [child_stack_eq_part]
      exact hproc key

/-- A single `next()` call cannot exhaust its fuel when the full run with
that fuel already empties the stack. -/
theorem da_next_of_run (cells : List Nat) :
    ∀ fuel st, (da_run cells fuel st).2 = [] →
      da_next cells (fuel + 1) st ≠ none := by
  intro fuel
  induction fuel with
  | zero =>
    intro st hst
    simp only [da_run] at hst
    subst hst
    simp [da_next]
  | succ f ih =>
    intro st hst
    match st with
    | [] => simp [da_next]
    | (i, key) :: rest =>
      by_cases hterm : check_of cells i = KEY_TERMINATOR
      · simp [da_next, hterm]
      · rw [da_run_succ_cons, if_neg hterm] at hst
        have h := ih (child_stack cells (base_of cells i) key ++ rest) hst
        simpa [da_next, hterm] using h

/-! ### Claim C3: iteration yields the stored keys in lexicographic order -/

/-- C3: for every storage satisfying the trie invariants (`TrieInv`: the
reachable cells form a finite tree rooted at 0, every child edge satisfying
`base(p) + b = i` with `check(i) = b`; keys are made prefix-free by the
`0xFE` terminator), the iterator started at the root performs the
depth-first descent in ascending child-byte order and the sequence of items
it yields is exactly the values of the stored byte keys, enumerated in
strictly ascending lexicographic order of those keys: there is an
enumeration `kl` of all stored keys, strictly ascending in `lex_lt`, with
the run emitting `kl.map (value_of cells 0)` and ending on an empty
stack. -/
theorem double_array_iterator_lex_order (cells : List Nat) (dom : List Nat)
    (rank : Nat → Nat) (hinv : TrieInv cells dom rank) :
    ∃ (kl : List (List Nat)) (fuel : Nat),
      List.Pairwise (fun p q => lex_lt p q = true) kl ∧
      (∀ p, p ∈ kl ↔ IsStoredKeyFrom cells 0 p) ∧
      ∀ extra, da_run cells (fuel + extra) [(0, [])] =
        (kl.map (value_of cells 0), []) := by
  obtain ⟨kl, used, hpair, hiff, hproc⟩ :=
    subtree_run cells dom rank hinv (rank 0 + 1) 0 hinv.1 (by omega) hinv.2.1
  refine ⟨kl, used, hpair, hiff, fun extra => ?_⟩
  have h := hproc [] [] extra
  simpa [da_run_nil] using h

/-- Witness for C3 at a concrete storage holding the single empty key with
value 42 (root cell `0x1FF` is vacant-checked with base 0; cell 254 is the
terminator cell `0x2AFE`, base 42, check `0xFE`). -/
theorem double_array_iterator_lex_order_witness :
    ∃ (kl : List (List Nat)) (fuel : Nat),
      List.Pairwise (fun p q => lex_lt p q = true) kl ∧
      (∀ p, p ∈ kl ↔ IsStoredKeyFrom ((List.replicate 255 0xFF).set 254 11006) 0 p) ∧
      ∀ extra, da_run ((List.replicate 255 0xFF).set 254 11006) (fuel + extra) [(0, [])] =
        (kl.map (value_of ((List.replicate 255 0xFF).set 254 11006) 0), []) :=
  double_array_iterator_lex_order ((List.replicate 255 0xFF).set 254 11006)
    [0, 254] (fun i => if i = 0 then 1 else 0) (by unfold TrieInv; decide)

/-! ### Claim C8: termination of iteration under the trie invariants -/

/-- C8: for every storage satisfying the trie invariants, `next()`
terminates (a fuel bound exists that the call does not exhaust), and
repeated calls empty the internal stack after finitely many pops: the full
run emits a finite sequence, is unchanged by extra fuel, and once the stack
is empty every further `next()` returns the absent item. -/
theorem double_array_iterator_terminates (cells : List Nat) (dom : List Nat)
    (rank : Nat → Nat) (hinv : TrieInv cells dom rank) :
    ∃ (fuel : Nat) (out : List Int),
      (∀ extra, da_run cells (fuel + extra) [(0, [])] = (out, [])) ∧
      (da_next cells (fuel + 1) [(0, [])] ≠ none) ∧
      (∀ extra, da_next cells (extra + 1) [] = some none) := by
  obtain ⟨kl, used, _, _, hproc⟩ :=
    subtree_run cells dom rank hinv (rank 0 + 1) 0 hinv.1 (by omega) hinv.2.1
  refine ⟨used, kl.map (value_of cells 0), fun extra => ?_, ?_, fun extra => rfl⟩
  · have h := hproc [] [] extra
    simpa [da_run_nil] using h
  · apply da_next_of_run
    have h := hproc [] [] 0
    rw [show used + 0 = used from rfl] at h
    simp only [List.append_nil] at h
    rw [h]
    simp [da_run_nil]

/-- Witness for C8 at the same concrete storage as the C3 witness. -/
theorem double_array_iterator_terminates_witness :
    ∃ (fuel : Nat) (out : List Int),
      (∀ extra, da_run ((List.replicate 255 0xFF).set 254 11006) (fuel + extra)
        [(0, [])] = (out, [])) ∧
      (da_next ((List.replicate 255 0xFF).set 254 11006) (fuel + 1) [(0, [])] ≠ none) ∧
      (∀ extra, da_next ((List.replicate 255 0xFF).set 254 11006) (extra + 1) [] =
        some none) :=
  double_array_iterator_terminates ((List.replicate 255 0xFF).set 254 11006)
    [0, 254] (fun i => if i = 0 then 1 else 0) (by unfold TrieInv; decide)

end Tetengo
